import Mathlib

/-!
Verification of the discussion-tree backend (`DiscussionsService`).

The embedding translates `src/discussions/discussions.service.ts`:

* Numeric values (`value`, `operand`) are modelled as exact rationals `Rat`:
  the entity stores them as high-precision decimals and the spec treats the
  arithmetic as exact.
* The `Operation` enum values are the strings `"add"`, `"subtract"`,
  `"multiply"`, `"divide"`; `calculateResult` switches on the raw tag and has
  a defensive default branch, so the tag is modelled as an arbitrary `String`.
* `NotFoundException` and `BadRequestException` become the two constructors
  of `ServiceError`; a thrown exception becomes an `Except.error`.
* The repository is a list of persisted nodes; `findOne` is `List.find?`,
  `save` appends.  The database-generated id of a freshly created node is
  passed in as an explicit `newId` argument.
* `getAllDiscussions` is translated as its two `forEach` passes over the
  fetched node list: pass one populates a map from id to a tree entry with an
  empty `children` array (later `Map.set` calls overwrite earlier ones), pass
  two pushes the id of each node onto the root list or onto the `children`
  array of its parent entry.  The returned object graph is faithfully represented by
  the root-id list together with the final map, since the nested `children`
  structure in the JS result is exactly what pointer-chasing through that map
  yields.
-/

/-- `DiscussionNode` entity: the persisted row, as used by the service.
The `author` relation and `createdAt` column only affect the fetch (join and
ordering), not the logic verified here; the fetched order is the order of the
input list. -/
structure DiscussionNode where
  id : String
  value : Rat
  operation : Option String
  operand : Option Rat
  parentId : Option String
  authorId : String
deriving DecidableEq, Repr

/-- The two error kinds the service throws: `NotFoundException` (missing
parent) and `BadRequestException` (division by zero / unknown operation tag,
called InvalidOperation in the spec). -/
inductive ServiceError where
  | notFound
  | invalidOperation
deriving DecidableEq, Repr

/-- `calculateResult(leftValue, operation, rightValue)`: switch on the
operation tag; `divide` throws on a zero operand, and any unrecognized tag
hits the defensive default branch. -/
def calculateResult (leftValue : Rat) (operation : String) (rightValue : Rat) :
    Except ServiceError Rat :=
  if operation = "add" then .ok (leftValue + rightValue)
  else if operation = "subtract" then .ok (leftValue - rightValue)
  else if operation = "multiply" then .ok (leftValue * rightValue)
  else if operation = "divide" then
    if rightValue = 0 then .error .invalidOperation
    else .ok (leftValue / rightValue)
  else .error .invalidOperation

/-- `CreateDiscussionDto`. -/
structure CreateDiscussionDto where
  startingNumber : Rat
deriving DecidableEq, Repr

/-- `AddOperationDto`. -/
structure AddOperationDto where
  parentId : String
  operation : String
  operand : Rat
deriving DecidableEq, Repr

/-- `createDiscussion(userId, dto)`: build a root node (no operation, no
operand, no parent) carrying the starting value, and save it.  Returns the
store after the save together with the saved node. -/
def createDiscussion (store : List DiscussionNode) (newId userId : String)
    (dto : CreateDiscussionDto) : List DiscussionNode × DiscussionNode :=
  let node : DiscussionNode :=
    { id := newId, value := dto.startingNumber, operation := none,
      operand := none, parentId := none, authorId := userId }
  (store ++ [node], node)

/-- `addOperation(userId, dto)`: look up the parent by id (`findOne`), throw
`NotFoundException` if absent, compute the child value via `calculateResult`
(propagating its exception), then build and save the child node. -/
def addOperation (store : List DiscussionNode) (newId userId : String)
    (dto : AddOperationDto) :
    Except ServiceError (List DiscussionNode × DiscussionNode) :=
  match store.find? (fun n => decide (n.id = dto.parentId)) with
  | none => .error .notFound
  | some parent =>
    match calculateResult parent.value dto.operation dto.operand with
    | .error e => .error e
    | .ok result =>
      let node : DiscussionNode :=
        { id := newId, value := result, operation := some dto.operation,
          operand := some dto.operand, parentId := some parent.id,
          authorId := userId }
      .ok (store ++ [node], node)

/-- The store after an `addOperation` call: a thrown exception aborts the call
before `save`, so on any error the store is exactly what it was. -/
def storeAfter (store : List DiscussionNode) (newId userId : String)
    (dto : AddOperationDto) : List DiscussionNode :=
  match addOperation store newId userId dto with
  | .error _ => store
  | .ok (s, _) => s

/-- One entry of the `nodeMap` built by `getAllDiscussions`: the spread copy of a node
plus its mutable `children` array, kept as the list of child ids in push
order (the array holds references to map entries, which are keyed by id). -/
structure TreeEntry where
  node : DiscussionNode
  children : List String
deriving DecidableEq, Repr

/-- `Map.set`: point update of the id-keyed node map. -/
def mapSet (m : String → Option TreeEntry) (k : String) (v : TreeEntry) :
    String → Option TreeEntry :=
  fun q => if q = k then some v else m q

/-- Pass one of `getAllDiscussions`: `nodeMap.set(node.id, {...node,
children: []})` for every fetched node, in order (later sets overwrite). -/
def buildMap (nodes : List DiscussionNode) : String → Option TreeEntry :=
  nodes.foldl (fun m n => mapSet m n.id { node := n, children := [] })
    (fun _ => none)

/-- One step of pass two of `getAllDiscussions`: a node with absent
`parentId` is pushed onto `rootNodes`; otherwise the parent entry is looked
up and, when present, the node is pushed onto its `children` (when absent,
the node is dropped without an error). -/
def pass2step (s : List String × (String → Option TreeEntry))
    (n : DiscussionNode) : List String × (String → Option TreeEntry) :=
  match n.parentId with
  | none => (s.1 ++ [n.id], s.2)
  | some p =>
    match s.2 p with
    | none => s
    | some e =>
      (s.1, mapSet s.2 p { node := e.node, children := e.children ++ [n.id] })

/-- `getAllDiscussions`: fetch gives `nodes`; build the map (pass one), then
fold pass two over the same list starting from an empty root list.  The
result is the `rootNodes` id list together with the final map. -/
def getAllDiscussions (nodes : List DiscussionNode) :
    List String × (String → Option TreeEntry) :=
  nodes.foldl pass2step ([], buildMap nodes)

/-- The ids of the returned roots, in push order. -/
def rootsOf (nodes : List DiscussionNode) : List String :=
  (getAllDiscussions nodes).1

/-- The `children` id sequence of the map entry keyed `q` after
`getAllDiscussions` (empty when no entry exists). -/
def childrenOf (nodes : List DiscussionNode) (q : String) : List String :=
  match (getAllDiscussions nodes).2 q with
  | none => []
  | some e => e.children

/-- Membership in the returned forest: an id appears in the result of
`getAllDiscussions` exactly when it is a root or is reachable from a root by
following `children` references through the map. -/
inductive InForest (nodes : List DiscussionNode) : String → Prop
  | root (q : String) : q ∈ rootsOf nodes → InForest nodes q
  | child (p q : String) : InForest nodes p → q ∈ childrenOf nodes p →
      InForest nodes q

/-- A node whose chain of `parentId` references ends at a root: such nodes
are exactly the ones the reconstruction can attach under a returned root. -/
inductive Rooted (nodes : List DiscussionNode) : DiscussionNode → Prop
  | root (m : DiscussionNode) : m ∈ nodes → m.parentId = none →
      Rooted nodes m
  | step (m p : DiscussionNode) : Rooted nodes p → m ∈ nodes →
      m.parentId = some p.id → Rooted nodes m

/-- `DescOf nodes x d`: node `d` is a proper descendant of `x`, i.e. the
chain of `parentId` references from `d` passes through `x`. -/
inductive DescOf (nodes : List DiscussionNode) (x : DiscussionNode) :
    DiscussionNode → Prop
  | base (d : DiscussionNode) : d ∈ nodes → d.parentId = some x.id →
      DescOf nodes x d
  | step (d m : DiscussionNode) : DescOf nodes x m → d ∈ nodes →
      d.parentId = some m.id → DescOf nodes x d

theorem pass2_fst (l : List DiscussionNode)
    (s : List String × (String → Option TreeEntry)) :
    (l.foldl pass2step s).1 =
      s.1 ++ ((l.filter (fun n => decide (n.parentId = none))).map (·.id)) := by
  induction l generalizing s with
  | nil => simp
  | cons n l ih =>
    rw [List.foldl_cons, ih]
    cases hp : n.parentId with
    | none => simp [pass2step, hp, List.filter_cons]
    | some p =>
      cases hm : s.2 p with
      | none => simp [pass2step, hp, hm, List.filter_cons]
      | some e => simp [pass2step, hp, hm, List.filter_cons]

theorem pass2_snd (l : List DiscussionNode)
    (s : List String × (String → Option TreeEntry)) (q : String) :
    (l.foldl pass2step s).2 q =
      (s.2 q).map (fun e =>
        { node := e.node,
          children := e.children ++
            ((l.filter (fun n => decide (n.parentId = some q))).map (·.id)) }) := by
  induction l generalizing s with
  | nil => cases h : s.2 q <;> simp [h]
  | cons n l ih =>
    rw [List.foldl_cons, ih]
    cases hp : n.parentId with
    | none =>
      simp only [pass2step, hp, List.filter_cons]
      simp
    | some p =>
      cases hm : s.2 p with
      | none =>
        simp only [pass2step, hp, hm]
        by_cases hq : q = p
        · subst hq; rw [hm]; simp
        · have hf : decide (n.parentId = some q) = false := by
            simp [hp]; exact fun h => hq h.symm
          simp only [List.filter_cons, hf]
          simp
      | some e =>
        simp only [pass2step, hp, hm]
        by_cases hq : q = p
        · subst hq
          rw [hm]
          have : decide (n.parentId = some q) = true := by simp [hp]
          simp only [mapSet, if_pos rfl, List.filter_cons, this, if_true,
            Option.map_some, List.map_cons]
          simp
        · have h1 : mapSet s.2 p
              { node := e.node, children := e.children ++ [n.id] } q = s.2 q := by
            simp [mapSet, hq]
          have h2 : decide (n.parentId = some q) = false := by
            simp [hp]; exact fun h => hq h.symm
          rw [h1, List.filter_cons, h2]
          simp

theorem buildMap_eq (nodes : List DiscussionNode) (q : String) :
    buildMap nodes q =
      (nodes.reverse.find? (fun n => decide (n.id = q))).map
        (fun n => { node := n, children := [] }) := by
  induction nodes using List.reverseRecOn with
  | nil => simp [buildMap]
  | append_singleton xs x ih =>
    have hfold : buildMap (xs ++ [x]) =
        mapSet (buildMap xs) x.id { node := x, children := [] } := by
      simp [buildMap, List.foldl_append]
    rw [hfold, List.reverse_append]
    by_cases h : q = x.id
    · simp [mapSet, h, List.find?_cons]
    · have hx : decide (x.id = q) = false := by
        simp; exact fun hh => h hh.symm
      simp only [mapSet, if_neg h, List.reverse_singleton, List.singleton_append,
        List.find?_cons, hx]
      exact ih

theorem buildMap_eq_none (nodes : List DiscussionNode) (q : String)
    (h : ∀ m ∈ nodes, m.id ≠ q) : buildMap nodes q = none := by
  rw [buildMap_eq]
  have : nodes.reverse.find? (fun n => decide (n.id = q)) = none := by
    rw [List.find?_eq_none]
    intro x hx
    simp [h x (List.mem_reverse.mp hx)]
  simp [this]

theorem buildMap_isSome (nodes : List DiscussionNode) (q : String)
    (h : ∃ m ∈ nodes, m.id = q) :
    ∃ m ∈ nodes, m.id = q ∧
      buildMap nodes q = some { node := m, children := [] } := by
  rw [buildMap_eq]
  obtain ⟨m, hm, hid⟩ := h
  have hsome : (nodes.reverse.find? (fun n => decide (n.id = q))).isSome := by
    exact List.find?_isSome.mpr ⟨m, List.mem_reverse.mpr hm, by simp [hid]⟩
  obtain ⟨m', hm'⟩ := Option.isSome_iff_exists.mp hsome
  refine ⟨m', List.mem_reverse.mp (List.mem_of_find?_eq_some hm'), ?_, by simp [hm']⟩
  have := List.find?_some hm'
  simpa using this

theorem rootsOf_eq (nodes : List DiscussionNode) :
    rootsOf nodes =
      ((nodes.filter (fun n => decide (n.parentId = none))).map (·.id)) := by
  unfold rootsOf getAllDiscussions
  rw [pass2_fst]
  simp

theorem childrenOf_of_mem (nodes : List DiscussionNode) (q : String)
    (h : ∃ m ∈ nodes, m.id = q) :
    childrenOf nodes q =
      ((nodes.filter (fun n => decide (n.parentId = some q))).map (·.id)) := by
  obtain ⟨m, hm, hid, hmap⟩ := buildMap_isSome nodes q h
  unfold childrenOf getAllDiscussions
  rw [pass2_snd]
  simp [hmap]

theorem childrenOf_of_not_mem (nodes : List DiscussionNode) (q : String)
    (h : ∀ m ∈ nodes, m.id ≠ q) : childrenOf nodes q = [] := by
  unfold childrenOf getAllDiscussions
  rw [pass2_snd]
  simp [buildMap_eq_none nodes q h]

theorem mem_rootsOf (nodes : List DiscussionNode) (q : String) :
    q ∈ rootsOf nodes ↔ ∃ n ∈ nodes, n.parentId = none ∧ n.id = q := by
  rw [rootsOf_eq]
  simp only [List.mem_map, List.mem_filter, decide_eq_true_iff]
  constructor
  · rintro ⟨n, ⟨hn, hp⟩, hid⟩
    exact ⟨n, hn, hp, hid⟩
  · rintro ⟨n, hn, hp, hid⟩
    exact ⟨n, ⟨hn, hp⟩, hid⟩

theorem mem_childrenOf (nodes : List DiscussionNode) (q r : String) :
    r ∈ childrenOf nodes q ↔
      (∃ m ∈ nodes, m.id = q) ∧ ∃ n ∈ nodes, n.parentId = some q ∧ n.id = r := by
  constructor
  · intro hr
    by_cases h : ∃ m ∈ nodes, m.id = q
    · refine ⟨h, ?_⟩
      rw [childrenOf_of_mem nodes q h] at hr
      simp only [List.mem_map, List.mem_filter, decide_eq_true_iff] at hr
      obtain ⟨n, ⟨hn, hp⟩, hid⟩ := hr
      exact ⟨n, hn, hp, hid⟩
    · rw [childrenOf_of_not_mem nodes q] at hr
      · simp at hr
      · intro m hm hid
        exact h ⟨m, hm, hid⟩
  · rintro ⟨hq, n, hn, hp, hid⟩
    rw [childrenOf_of_mem nodes q hq]
    simp only [List.mem_map, List.mem_filter, decide_eq_true_iff]
    exact ⟨n, ⟨hn, hp⟩, hid⟩

theorem id_inj (nodes : List DiscussionNode)
    (hnd : (nodes.map (·.id)).Nodup) {m n : DiscussionNode}
    (hm : m ∈ nodes) (hn : n ∈ nodes) (h : m.id = n.id) : m = n :=
  List.inj_on_of_nodup_map hnd hm hn h

theorem inForest_rooted (nodes : List DiscussionNode) (q : String)
    (h : InForest nodes q) : ∃ m ∈ nodes, m.id = q ∧ Rooted nodes m := by
  induction h with
  | root q hq =>
    obtain ⟨n, hn, hp, hid⟩ := (mem_rootsOf nodes q).mp hq
    exact ⟨n, hn, hid, Rooted.root n hn hp⟩
  | child p q hp hq ih =>
    obtain ⟨mp, hmp, hmpid, hmproot⟩ := ih
    obtain ⟨_, n, hn, hnp, hnid⟩ := (mem_childrenOf nodes p q).mp hq
    refine ⟨n, hn, hnid, Rooted.step n mp hmproot hn ?_⟩
    rw [hnp, hmpid]

theorem rooted_mem (nodes : List DiscussionNode) (m : DiscussionNode)
    (h : Rooted nodes m) : m ∈ nodes := by
  cases h with
  | root m hm _ => exact hm
  | step m p _ hm _ => exact hm

theorem rooted_inForest (nodes : List DiscussionNode) (m : DiscussionNode)
    (h : Rooted nodes m) : InForest nodes m.id := by
  induction h with
  | root m hm hp =>
    exact InForest.root m.id ((mem_rootsOf nodes m.id).mpr ⟨m, hm, hp, rfl⟩)
  | step m p hp hm hpar ih =>
    refine InForest.child p.id m.id ih ?_
    exact (mem_childrenOf nodes p.id m.id).mpr
      ⟨⟨p, rooted_mem nodes p hp, rfl⟩, m, hm, hpar, rfl⟩

theorem desc_mem (nodes : List DiscussionNode) (x d : DiscussionNode)
    (h : DescOf nodes x d) : d ∈ nodes := by
  cases h with
  | base d hd _ => exact hd
  | step d m _ hd _ => exact hd

theorem rooted_avoids_dangling (nodes : List DiscussionNode)
    (x : DiscussionNode) (p : String) (hnd : (nodes.map (·.id)).Nodup)
    (hx : x ∈ nodes) (hxp : x.parentId = some p)
    (hdang : ∀ m ∈ nodes, m.id ≠ p) (m : DiscussionNode)
    (h : Rooted nodes m) : m ≠ x ∧ ¬ DescOf nodes x m := by
  induction h with
  | root m hm hpnone =>
    constructor
    · rintro rfl
      rw [hxp] at hpnone
      cases hpnone
    · intro hd
      cases hd with
      | base _ _ hpar => rw [hpnone] at hpar; cases hpar
      | step _ _ _ _ hpar => rw [hpnone] at hpar; cases hpar
  | step m q hq hm hpar ih =>
    have hqmem : q ∈ nodes := rooted_mem nodes q hq
    constructor
    · rintro rfl
      rw [hxp] at hpar
      exact hdang q hqmem (Option.some.inj hpar).symm
    · intro hd
      cases hd with
      | base _ _ hparx =>
        rw [hpar] at hparx
        have hqx : q.id = x.id := Option.some.inj hparx
        exact ih.1 (id_inj nodes hnd hqmem hx hqx)
      | step _ mm hdesc _ hparm =>
        rw [hpar] at hparm
        have hqmm : q.id = mm.id := Option.some.inj hparm
        have : q = mm := id_inj nodes hnd hqmem (desc_mem nodes x mm hdesc) hqmm
        exact ih.2 (this ▸ hdesc)

theorem rooted_avoids_cycle (nodes : List DiscussionNode)
    (a b : DiscussionNode) (hnd : (nodes.map (·.id)).Nodup)
    (ha : a ∈ nodes) (hb : b ∈ nodes)
    (hab : a.parentId = some b.id) (hba : b.parentId = some a.id)
    (m : DiscussionNode) (h : Rooted nodes m) : m ≠ a ∧ m ≠ b := by
  induction h with
  | root m hm hpnone =>
    constructor
    · rintro rfl; rw [hab] at hpnone; cases hpnone
    · rintro rfl; rw [hba] at hpnone; cases hpnone
  | step m q hq hm hpar ih =>
    have hqmem : q ∈ nodes := rooted_mem nodes q hq
    constructor
    · rintro rfl
      rw [hab] at hpar
      have hqb : q.id = b.id := (Option.some.inj hpar).symm
      exact ih.2 (id_inj nodes hnd hqmem hb hqb)
    · rintro rfl
      rw [hba] at hpar
      have hqa : q.id = a.id := (Option.some.inj hpar).symm
      exact ih.1 (id_inj nodes hnd hqmem ha hqa)

/-- C1: for every parent value and operand, `calculateResult` returns exactly
the sum for `add`, the difference for `subtract`, the product for `multiply`,
and the quotient for `divide` whenever the operand is nonzero. -/
theorem calculateResult_arith (l r : Rat) :
    calculateResult l "add" r = .ok (l + r) ∧
    calculateResult l "subtract" r = .ok (l - r) ∧
    calculateResult l "multiply" r = .ok (l * r) ∧
    (r ≠ 0 → calculateResult l "divide" r = .ok (l / r)) := by
  refine ⟨by simp [calculateResult], by simp [calculateResult],
    by simp [calculateResult], fun hr => by simp [calculateResult, hr]⟩

theorem calculateResult_arith_witness :
    calculateResult 10 "add" 5 = .ok 15 ∧
    calculateResult 10 "subtract" 5 = .ok 5 ∧
    calculateResult 10 "multiply" 5 = .ok 50 ∧
    calculateResult 10 "divide" 5 = .ok 2 := by
  obtain ⟨h1, h2, h3, h4⟩ := calculateResult_arith 10 5
  refine ⟨by rw [h1]; norm_num [Except.ok.injEq],
    by rw [h2]; norm_num [Except.ok.injEq],
    by rw [h3]; norm_num [Except.ok.injEq], ?_⟩
  rw [h4 (by norm_num)]
  norm_num [Except.ok.injEq]

/-- C2: `calculateResult` fails with InvalidOperation exactly when the
operation is `divide` with a zero operand or the tag is none of the four
recognized kinds; in every other case it returns a value. -/
theorem calculateResult_invalid_iff (l r : Rat) (op : String) :
    (calculateResult l op r = .error .invalidOperation ↔
      (op = "divide" ∧ r = 0) ∨
      (op ≠ "add" ∧ op ≠ "subtract" ∧ op ≠ "multiply" ∧ op ≠ "divide")) ∧
    ((op = "add" ∨ op = "subtract" ∨ op = "multiply" ∨
        (op = "divide" ∧ r ≠ 0)) →
      ∃ v, calculateResult l op r = .ok v) := by
  by_cases h1 : op = "add"
  · subst h1; simp [calculateResult]
  · by_cases h2 : op = "subtract"
    · subst h2; simp [calculateResult]
    · by_cases h3 : op = "multiply"
      · subst h3; simp [calculateResult, h1]
      · by_cases h4 : op = "divide"
        · subst h4
          by_cases hr : r = 0 <;>
            simp [calculateResult, h1, h2, h3, hr]
        · simp [calculateResult, h1, h2, h3, h4]

theorem calculateResult_invalid_iff_witness :
    calculateResult 10 "divide" 0 = .error .invalidOperation ∧
    calculateResult 10 "modulo" 3 = .error .invalidOperation ∧
    ∃ v, calculateResult 10 "add" 5 = .ok v := by
  refine ⟨?_, ?_, ?_⟩
  · exact (calculateResult_invalid_iff 10 0 "divide").1.mpr (Or.inl ⟨rfl, rfl⟩)
  · exact (calculateResult_invalid_iff 10 3 "modulo").1.mpr
      (Or.inr ⟨by decide, by decide, by decide, by decide⟩)
  · exact (calculateResult_invalid_iff 10 5 "add").2 (Or.inl rfl)

/-- C3: when no stored node has the requested parent id, `addOperation`
fails with NotFound; and on any failure (NotFound or InvalidOperation) the
store after the call is exactly the store before it — no node is
persisted. -/
theorem addOperation_failure_no_persist (store : List DiscussionNode)
    (newId userId : String) (dto : AddOperationDto) :
    ((∀ n ∈ store, n.id ≠ dto.parentId) →
      addOperation store newId userId dto = .error .notFound) ∧
    (∀ e, addOperation store newId userId dto = .error e →
      storeAfter store newId userId dto = store) := by
  constructor
  · intro h
    have hf : store.find? (fun n => decide (n.id = dto.parentId)) = none := by
      rw [List.find?_eq_none]
      intro x hx
      simp [h x hx]
    simp [addOperation, hf]
  · intro e he
    unfold storeAfter
    rw [he]

theorem addOperation_failure_no_persist_witness :
    addOperation [⟨"A", 1, none, none, none, "u"⟩] "N" "u"
        ⟨"missing", "add", 5⟩ = .error .notFound ∧
    storeAfter [⟨"A", 1, none, none, none, "u"⟩] "N" "u"
        ⟨"missing", "add", 5⟩ = [⟨"A", 1, none, none, none, "u"⟩] := by
  have h := addOperation_failure_no_persist
    [⟨"A", 1, none, none, none, "u"⟩] "N" "u" ⟨"missing", "add", 5⟩
  have h1 := h.1 (by decide)
  exact ⟨h1, h.2 .notFound h1⟩

/-- C7: `createDiscussion` produces a node with `operation`, `operand` and
`parentId` all absent, value equal to the starting number, and the given
author id. -/
theorem createDiscussion_root_node (store : List DiscussionNode)
    (newId userId : String) (dto : CreateDiscussionDto) :
    (createDiscussion store newId userId dto).2.operation = none ∧
    (createDiscussion store newId userId dto).2.operand = none ∧
    (createDiscussion store newId userId dto).2.parentId = none ∧
    (createDiscussion store newId userId dto).2.value = dto.startingNumber ∧
    (createDiscussion store newId userId dto).2.authorId = userId :=
  ⟨rfl, rfl, rfl, rfl, rfl⟩

/-- C4: a node whose `parentId` is present but matches no node id in the
input list is excluded from the forest returned by `getAllDiscussions` (the
reconstruction is a total function, so no error is raised). -/
theorem getAllDiscussions_dangling_excluded (nodes : List DiscussionNode)
    (n : DiscussionNode) (p : String) (hnd : (nodes.map (·.id)).Nodup)
    (hn : n ∈ nodes) (hp : n.parentId = some p)
    (hdang : ∀ m ∈ nodes, m.id ≠ p) : ¬ InForest nodes n.id := by
  intro hf
  obtain ⟨m, hm, hmid, hmr⟩ := inForest_rooted nodes n.id hf
  exact (rooted_avoids_dangling nodes n p hnd hn hp hdang m hmr).1
    (id_inj nodes hnd hm hn hmid)

theorem getAllDiscussions_dangling_excluded_witness :
    ¬ InForest [⟨"D", 4, some "add", some 1, some "ZZ", "u"⟩,
        ⟨"A", 1, none, none, none, "u"⟩] "D" := by
  exact getAllDiscussions_dangling_excluded
    [⟨"D", 4, some "add", some 1, some "ZZ", "u"⟩,
      ⟨"A", 1, none, none, none, "u"⟩]
    ⟨"D", 4, some "add", some 1, some "ZZ", "u"⟩ "ZZ"
    (by decide) (by decide) rfl (by decide)

/-- C8: when a node is excluded because its `parentId` is dangling, every
descendant of that node (every node whose `parentId` chain passes through
it) is also absent from the forest returned by `getAllDiscussions`. -/
theorem getAllDiscussions_dangling_desc_excluded (nodes : List DiscussionNode)
    (n d : DiscussionNode) (p : String) (hnd : (nodes.map (·.id)).Nodup)
    (hn : n ∈ nodes) (hp : n.parentId = some p)
    (hdang : ∀ m ∈ nodes, m.id ≠ p) (hd : DescOf nodes n d) :
    ¬ InForest nodes d.id := by
  intro hf
  obtain ⟨m, hm, hmid, hmr⟩ := inForest_rooted nodes d.id hf
  have hmd : m = d := id_inj nodes hnd hm (desc_mem nodes n d hd) hmid
  exact (rooted_avoids_dangling nodes n p hnd hn hp hdang m hmr).2
    (hmd.symm ▸ hd)

theorem getAllDiscussions_dangling_desc_excluded_witness :
    ¬ InForest [⟨"D", 4, some "add", some 1, some "ZZ", "u"⟩,
        ⟨"E", 5, some "add", some 1, some "D", "u"⟩,
        ⟨"A", 1, none, none, none, "u"⟩] "E" := by
  exact getAllDiscussions_dangling_desc_excluded
    [⟨"D", 4, some "add", some 1, some "ZZ", "u"⟩,
      ⟨"E", 5, some "add", some 1, some "D", "u"⟩,
      ⟨"A", 1, none, none, none, "u"⟩]
    ⟨"D", 4, some "add", some 1, some "ZZ", "u"⟩
    ⟨"E", 5, some "add", some 1, some "D", "u"⟩ "ZZ"
    (by decide) (by decide) rfl (by decide)
    (DescOf.base _ (by decide) rfl)

/-- C9: the reconstruction is total on every finite input (it is two folds
over the list, with no recursion on the tree structure), and when the
`parentId` references of two nodes form a cycle — a self-reference being the
case `a = b` — the members of the cycle are absent from the returned forest and
no error is raised. -/
theorem getAllDiscussions_cycle_excluded (nodes : List DiscussionNode)
    (a b : DiscussionNode) (hnd : (nodes.map (·.id)).Nodup)
    (ha : a ∈ nodes) (hb : b ∈ nodes)
    (hab : a.parentId = some b.id) (hba : b.parentId = some a.id) :
    ¬ InForest nodes a.id ∧ ¬ InForest nodes b.id := by
  constructor <;> intro hf
  · obtain ⟨m, hm, hmid, hmr⟩ := inForest_rooted nodes a.id hf
    exact (rooted_avoids_cycle nodes a b hnd ha hb hab hba m hmr).1
      (id_inj nodes hnd hm ha hmid)
  · obtain ⟨m, hm, hmid, hmr⟩ := inForest_rooted nodes b.id hf
    exact (rooted_avoids_cycle nodes a b hnd ha hb hab hba m hmr).2
      (id_inj nodes hnd hm hb hmid)

theorem getAllDiscussions_cycle_excluded_witness :
    ¬ InForest [⟨"X", 1, some "add", some 1, some "Y", "u"⟩,
        ⟨"Y", 2, some "add", some 1, some "X", "u"⟩,
        ⟨"A", 1, none, none, none, "u"⟩] "X" ∧
    ¬ InForest [⟨"X", 1, some "add", some 1, some "Y", "u"⟩,
        ⟨"Y", 2, some "add", some 1, some "X", "u"⟩,
        ⟨"A", 1, none, none, none, "u"⟩] "Y" := by
  exact getAllDiscussions_cycle_excluded
    [⟨"X", 1, some "add", some 1, some "Y", "u"⟩,
      ⟨"Y", 2, some "add", some 1, some "X", "u"⟩,
      ⟨"A", 1, none, none, none, "u"⟩]
    ⟨"X", 1, some "add", some 1, some "Y", "u"⟩
    ⟨"Y", 2, some "add", some 1, some "X", "u"⟩
    (by decide) (by decide) (by decide) rfl rfl

/-- C5: reconstruction is order-independent — for any permutation of the
input node list, `getAllDiscussions` yields the same set of roots and the
same parent-child relation. -/
theorem getAllDiscussions_perm_invariant (nodes nodes' : List DiscussionNode)
    (hperm : nodes.Perm nodes') :
    (∀ q, q ∈ rootsOf nodes ↔ q ∈ rootsOf nodes') ∧
    (∀ p q, q ∈ childrenOf nodes p ↔ q ∈ childrenOf nodes' p) := by
  constructor
  · intro q
    rw [mem_rootsOf, mem_rootsOf]
    constructor <;> rintro ⟨n, hn, hp, hid⟩
    · exact ⟨n, hperm.mem_iff.mp hn, hp, hid⟩
    · exact ⟨n, hperm.mem_iff.mpr hn, hp, hid⟩
  · intro p q
    rw [mem_childrenOf, mem_childrenOf]
    constructor <;> rintro ⟨⟨m, hm, hmid⟩, n, hn, hp, hid⟩
    · exact ⟨⟨m, hperm.mem_iff.mp hm, hmid⟩, n, hperm.mem_iff.mp hn, hp, hid⟩
    · exact ⟨⟨m, hperm.mem_iff.mpr hm, hmid⟩, n, hperm.mem_iff.mpr hn, hp, hid⟩

theorem getAllDiscussions_perm_invariant_witness :
    ("B" ∈ childrenOf [⟨"C", 3, some "add", some 1, some "B", "u"⟩,
        ⟨"B", 2, some "add", some 1, some "A", "u"⟩,
        ⟨"A", 1, none, none, none, "u"⟩] "A" ↔
      "B" ∈ childrenOf [⟨"A", 1, none, none, none, "u"⟩,
        ⟨"B", 2, some "add", some 1, some "A", "u"⟩,
        ⟨"C", 3, some "add", some 1, some "B", "u"⟩] "A") ∧
    ("A" ∈ rootsOf [⟨"C", 3, some "add", some 1, some "B", "u"⟩,
        ⟨"B", 2, some "add", some 1, some "A", "u"⟩,
        ⟨"A", 1, none, none, none, "u"⟩] ↔
      "A" ∈ rootsOf [⟨"A", 1, none, none, none, "u"⟩,
        ⟨"B", 2, some "add", some 1, some "A", "u"⟩,
        ⟨"C", 3, some "add", some 1, some "B", "u"⟩]) := by
  have h := getAllDiscussions_perm_invariant
    [⟨"C", 3, some "add", some 1, some "B", "u"⟩,
      ⟨"B", 2, some "add", some 1, some "A", "u"⟩,
      ⟨"A", 1, none, none, none, "u"⟩]
    [⟨"A", 1, none, none, none, "u"⟩,
      ⟨"B", 2, some "add", some 1, some "A", "u"⟩,
      ⟨"C", 3, some "add", some 1, some "B", "u"⟩]
    (by decide)
  exact ⟨h.2 "A" "B", h.1 "A"⟩

/-- C6: the `children` sequence of each present parent lists its children in
input order, and the root sequence lists the roots in input order — no
separate sorting is applied. -/
theorem getAllDiscussions_input_order (nodes : List DiscussionNode)
    (q : String) (hq : ∃ m ∈ nodes, m.id = q) :
    childrenOf nodes q =
      ((nodes.filter (fun n => decide (n.parentId = some q))).map (·.id)) ∧
    rootsOf nodes =
      ((nodes.filter (fun n => decide (n.parentId = none))).map (·.id)) :=
  ⟨childrenOf_of_mem nodes q hq, rootsOf_eq nodes⟩

theorem getAllDiscussions_input_order_witness :
    childrenOf [⟨"A", 1, none, none, none, "u"⟩,
        ⟨"B2", 2, some "add", some 1, some "A", "u"⟩,
        ⟨"B1", 2, some "add", some 1, some "A", "u"⟩] "A" = ["B2", "B1"] ∧
    rootsOf [⟨"A", 1, none, none, none, "u"⟩,
        ⟨"B2", 2, some "add", some 1, some "A", "u"⟩,
        ⟨"B1", 2, some "add", some 1, some "A", "u"⟩] = ["A"] := by
  have h := getAllDiscussions_input_order
    [⟨"A", 1, none, none, none, "u"⟩,
      ⟨"B2", 2, some "add", some 1, some "A", "u"⟩,
      ⟨"B1", 2, some "add", some 1, some "A", "u"⟩] "A"
    ⟨⟨"A", 1, none, none, none, "u"⟩, by decide, rfl⟩
  refine ⟨?_, ?_⟩
  · rw [h.1]; decide
  · rw [h.2]; decide

theorem count_map_id (l : List DiscussionNode) (x : String) :
    (l.map (·.id)).count x = l.countP (fun n => decide (n.id = x)) := by
  induction l with
  | nil => simp
  | cons a l ih =>
    rw [List.map_cons, List.count_cons, List.countP_cons, ih]
    by_cases h : a.id = x <;> simp [h]

theorem count_map_id_filter (l : List DiscussionNode)
    (p : DiscussionNode → Bool) (x : String) :
    ((l.filter p).map (·.id)).count x =
      l.countP (fun n => p n && decide (n.id = x)) := by
  induction l with
  | nil => simp
  | cons a l ih =>
    rw [List.filter_cons, List.countP_cons]
    by_cases hp : p a
    · rw [if_pos hp, List.map_cons, List.count_cons, ih]
      by_cases h : a.id = x <;> simp [h, hp]
    · have : (if p a = true then a :: l.filter p else l.filter p) =
          l.filter p := by simp [hp]
      rw [this, ih]
      simp [hp]

theorem sum_map_ite (l : List DiscussionNode) (g : DiscussionNode → Bool) :
    (l.map (fun p => if g p then 1 else 0)).sum = l.countP g := by
  induction l with
  | nil => simp
  | cons a l ih =>
    rw [List.map_cons, List.sum_cons, List.countP_cons, ih]
    by_cases h : g a
    · simp [h]
      omega
    · simp [h]

theorem count_flatMap (f : DiscussionNode → List String) (x : String)
    (l : List DiscussionNode) :
    (l.flatMap f).count x = (l.map (fun p => (f p).count x)).sum := by
  induction l with
  | nil => simp
  | cons a l ih =>
    rw [List.flatMap_cons, List.count_append, List.map_cons, List.sum_cons, ih]

theorem countP_id_unique (x : String) (q : DiscussionNode → Bool) :
    ∀ (l : List DiscussionNode), (l.map (·.id)).Nodup →
    ∀ nx, nx ∈ l → nx.id = x →
    l.countP (fun n => q n && decide (n.id = x)) = if q nx then 1 else 0 := by
  intro l
  induction l with
  | nil => intro _ nx hnx; cases hnx
  | cons a l ih =>
    intro hnd nx hnx hid
    rw [List.map_cons, List.nodup_cons] at hnd
    rw [List.countP_cons]
    rcases List.mem_cons.mp hnx with heq | hmem
    · subst heq
      have h0 : l.countP (fun n => q n && decide (n.id = x)) = 0 := by
        rw [List.countP_eq_zero]
        intro n hn
        have hne : n.id ≠ x := by
          intro he
          apply hnd.1
          rw [← hid] at he
          rw [← he]
          exact List.mem_map_of_mem _ hn
        simp [hne]
      rw [h0, hid]
      simp
    · have ha : a.id ≠ x := by
        intro he
        apply hnd.1
        rw [he, ← hid]
        exact List.mem_map_of_mem _ hmem
      rw [ih hnd.2 nx hmem hid]
      simp [ha]

/-- C10: when node ids are pairwise distinct and every present `parentId`
resolves to a node in the list, the occurrence list of the reconstruction —
the root sequence followed by the `children` sequence of every parent — is a
permutation of the input ids: each input node occurs exactly once, either as
a root or in the `children` sequence of exactly one parent, with no node
duplicated or invented. -/
theorem getAllDiscussions_partition (nodes : List DiscussionNode)
    (hnd : (nodes.map (·.id)).Nodup)
    (hres : ∀ n ∈ nodes, ∀ p, n.parentId = some p → ∃ m ∈ nodes, m.id = p) :
    (rootsOf nodes ++ nodes.flatMap (fun p => childrenOf nodes p.id)).Perm
      (nodes.map (·.id)) := by
  rw [List.perm_iff_count]
  intro x
  rw [List.count_append, count_flatMap, rootsOf_eq, count_map_id_filter]
  have hch : ∀ p ∈ nodes, (childrenOf nodes p.id).count x =
      nodes.countP
        (fun n => decide (n.parentId = some p.id) && decide (n.id = x)) := by
    intro p hp
    rw [childrenOf_of_mem nodes p.id ⟨p, hp, rfl⟩, count_map_id_filter]
  rw [List.map_congr_left hch]
  by_cases hx : ∃ nx ∈ nodes, nx.id = x
  · obtain ⟨nx, hnx, hid⟩ := hx
    have hrhs : (nodes.map (·.id)).count x = 1 :=
      List.count_eq_one_of_mem hnd (hid ▸ List.mem_map_of_mem _ hnx)
    rw [hrhs,
      countP_id_unique x (fun n => decide (n.parentId = none)) nodes hnd nx
        hnx hid]
    have hch2 : ∀ p ∈ nodes,
        nodes.countP
          (fun n => decide (n.parentId = some p.id) && decide (n.id = x)) =
        if decide (nx.parentId = some p.id) then 1 else 0 := by
      intro p _
      exact countP_id_unique x (fun n => decide (n.parentId = some p.id))
        nodes hnd nx hnx hid
    rw [List.map_congr_left hch2, sum_map_ite]
    cases hpar : nx.parentId with
    | none =>
      have h0 : nodes.countP
          (fun a => decide ((none : Option String) = some a.id)) = 0 := by
        rw [List.countP_eq_zero]
        intro p _
        simp
      rw [h0]
      simp
    | some pid =>
      obtain ⟨mp, hmp, hmpid⟩ := hres nx hnx pid hpar
      have h1 : nodes.countP
          (fun a => decide ((some pid : Option String) = some a.id)) = 1 := by
        have hcong : nodes.countP
            (fun a => decide ((some pid : Option String) = some a.id)) =
            nodes.countP (fun a => decide (a.id = pid)) := by
          apply List.countP_congr
          intro p _
          simp [eq_comm]
        rw [hcong, ← count_map_id]
        exact List.count_eq_one_of_mem hnd (hmpid ▸ List.mem_map_of_mem _ hmp)
      rw [h1]
      simp
  · push_neg at hx
    have hrhs : (nodes.map (·.id)).count x = 0 := by
      rw [count_map_id, List.countP_eq_zero]
      intro n hn
      simp [hx n hn]
    have hroot : nodes.countP
        (fun n => decide (n.parentId = none) && decide (n.id = x)) = 0 := by
      rw [List.countP_eq_zero]
      intro n hn
      simp [hx n hn]
    have hchz : ∀ p ∈ nodes,
        nodes.countP
          (fun n => decide (n.parentId = some p.id) && decide (n.id = x)) = 0 := by
      intro p _
      rw [List.countP_eq_zero]
      intro n hn
      simp [hx n hn]
    rw [List.map_congr_left hchz, hroot, hrhs]
    simp

theorem getAllDiscussions_partition_witness :
    (rootsOf ([⟨"A", 1, none, none, none, "u"⟩,
        ⟨"B", 2, some "add", some 1, some "A", "u"⟩,
        ⟨"C", 3, some "add", some 1, some "B", "u"⟩] : List DiscussionNode) ++
      ([⟨"A", 1, none, none, none, "u"⟩,
        ⟨"B", 2, some "add", some 1, some "A", "u"⟩,
        ⟨"C", 3, some "add", some 1, some "B", "u"⟩] :
          List DiscussionNode).flatMap
        (fun p => childrenOf [⟨"A", 1, none, none, none, "u"⟩,
          ⟨"B", 2, some "add", some 1, some "A", "u"⟩,
          ⟨"C", 3, some "add", some 1, some "B", "u"⟩] p.id)).Perm
      (([⟨"A", 1, none, none, none, "u"⟩,
        ⟨"B", 2, some "add", some 1, some "A", "u"⟩,
        ⟨"C", 3, some "add", some 1, some "B", "u"⟩] :
          List DiscussionNode).map (·.id)) := by
  apply getAllDiscussions_partition
  · decide
  · intro n hn p hp
    fin_cases hn <;> simp_all
